import Mathlib

/-!
Shallow embedding of the financial time-series analyzer (`algorithm.py`,
class `FinancialAnalyzer`) and verification of its specification.

Modelling conventions:
* Python floats are modelled as exact rationals `ℚ`; timestamps (datetimes)
  are modelled as rational numbers of seconds on a totally ordered axis, so
  `(t2 - t1).total_seconds()` is `t2 - t1`.
* Python's `ZeroDivisionError` (float division by zero raises in Python) is
  modelled by computations returning `Except PyError _`.
* `np.sqrt` appears only in comparisons `dist > threshold`; since `sqrt` is
  strictly monotone on nonnegatives, the comparison is embedded on squares:
  `sqrt s > t` iff `t < 0 ∨ s > t^2` (for `s ≥ 0`, which always holds for a
  sum of two squares).
-/

namespace FinAnalyzer

/-- Python exceptions observable from the embedded code (`outOfFuel` is not
a Python exception: it marks exhaustion of the explicit recursion-depth fuel
of the embedding, and is proved unreachable). -/
inductive PyError where
  | zeroDivision
  | valueError
  | indexError
  | outOfFuel
  deriving Repr, DecidableEq

/-- `FinancialDataPoint` dataclass: timestamp, price, optional volume
(`load_data` stores `None` for missing volumes, per the test suite). -/
structure FinancialDataPoint where
  timestamp : ℚ
  price : ℚ
  volume : Option ℚ := none
  deriving Repr, DecidableEq

/-- `AnomalyReport` dataclass. -/
structure AnomalyReport where
  timestamp : ℚ
  value : ℚ
  expected_value : ℚ
  deviation_percentage : ℚ
  deriving Repr, DecidableEq

/-- `MaximumSubarrayResult` dataclass. -/
structure MaximumSubarrayResult where
  start_index : ℕ
  end_index : ℕ
  sum_value : WithBot ℚ
  deriving Repr, DecidableEq

/-- The merge phase of `merge_sort` (the `while` loop plus the two `extend`s):
repeatedly take the head of whichever half has the earlier-or-equal timestamp,
the left half winning ties. -/
def mergeHalves : List FinancialDataPoint → List FinancialDataPoint →
    List FinancialDataPoint
  | [], r => r
  | l, [] => l
  | a :: l, b :: r =>
    if a.timestamp ≤ b.timestamp then a :: mergeHalves l (b :: r)
    else b :: mergeHalves (a :: l) r

/-- `FinancialAnalyzer.merge_sort`: split at the midpoint `len arr / 2`,
recursively sort each half, merge. -/
def merge_sort (arr : List FinancialDataPoint) : List FinancialDataPoint :=
  if h : arr.length ≤ 1 then arr
  else
    mergeHalves (merge_sort (arr.take (arr.length / 2)))
      (merge_sort (arr.drop (arr.length / 2)))
termination_by arr.length
decreasing_by
  · simpa using Nat.lt_of_lt_of_le
      (Nat.div_lt_self (by omega) (by omega)) (Nat.le_refl _)
  · simp only [List.length_drop]
    omega

/-- Ordering of data points used by the sort. -/
def tsLE (a b : FinancialDataPoint) : Prop := a.timestamp ≤ b.timestamp

instance : DecidableRel tsLE := fun a b =>
  inferInstanceAs (Decidable (a.timestamp ≤ b.timestamp))

/-- The timestamp-`t` elements of a list, in order: the standard observation
for stating sort stability. -/
def atKey (t : ℚ) (l : List FinancialDataPoint) : List FinancialDataPoint :=
  l.filter (fun p => decide (p.timestamp = t))

/-- Sum `arr[a] + ... + arr[b-1]` (indexing by `getD` with default `0`,
as in the rest of the embedding). -/
def sumRange (arr : List ℚ) (a b : ℕ) : ℚ :=
  ((List.range' a (b - a)).map (fun i => arr.getD i 0)).sum

/-- The left scan of `max_crossing_sum`
(`for i in range(mid - 1, low - 1, -1)`): `i` is the current index, `cnt`
the number of remaining iterations, `sum_temp`/`best`/`bestIdx` the loop
state (`sum_temp`, `left_sum`, `max_left`); `left_sum` starts at
`float('-inf')`, modelled as `⊥ : WithBot ℚ`. -/
def crossLeftGo (arr : List ℚ) :
    ℕ → ℕ → ℚ → WithBot ℚ → ℕ → WithBot ℚ × ℕ
  | _, 0, _, best, bestIdx => (best, bestIdx)
  | i, cnt + 1, sum_temp, best, bestIdx =>
    let s := sum_temp + arr.getD i 0
    if best < (s : WithBot ℚ) then crossLeftGo arr (i - 1) cnt s (s : WithBot ℚ) i
    else crossLeftGo arr (i - 1) cnt s best bestIdx

/-- The right scan of `max_crossing_sum`
(`for i in range(mid + 1, high + 1)`), state as in `crossLeftGo`. -/
def crossRightGo (arr : List ℚ) :
    ℕ → ℕ → ℚ → WithBot ℚ → ℕ → WithBot ℚ × ℕ
  | _, 0, _, best, bestIdx => (best, bestIdx)
  | i, cnt + 1, sum_temp, best, bestIdx =>
    let s := sum_temp + arr.getD i 0
    if best < (s : WithBot ℚ) then crossRightGo arr (i + 1) cnt s (s : WithBot ℚ) i
    else crossRightGo arr (i + 1) cnt s best bestIdx

/-- `max_crossing_sum(arr, low, mid, high)`: best sum crossing the midpoint,
returned as `(max_left, max_right, left_sum + arr[mid] + right_sum)`.
`⊥` models `float('-inf')` (Python: `-inf + x = -inf`, and in `WithBot ℚ`
likewise `⊥ + x = ⊥`). -/
def max_crossing_sum (arr : List ℚ) (low mid high : ℕ) :
    ℕ × ℕ × WithBot ℚ :=
  let L := crossLeftGo arr (mid - 1) (mid - low) 0 ⊥ mid
  let R := crossRightGo arr (mid + 1) (high - mid) 0 ⊥ (mid + 1)
  (L.2, R.2, L.1 + ((arr.getD mid 0 : ℚ) : WithBot ℚ) + R.1)

/-- `max_subarray(arr, low, high)` of `find_maximum_subarray`. The extra
`fuel` argument bounds the recursion depth so the definition is structural;
callers pass fuel `> high - low`, which is never exhausted (the fuel-0 value
coincides with the `high == low` base case and is unreachable under the
sufficiency hypothesis proved below). -/
def max_subarray (arr : List ℚ) : ℕ → ℕ → ℕ → ℕ × ℕ × WithBot ℚ
  | 0, low, high => (low, high, ((arr.getD low 0 : ℚ) : WithBot ℚ))
  | fuel + 1, low, high =>
    if high = low then (low, high, ((arr.getD low 0 : ℚ) : WithBot ℚ))
    else
      let mid := (low + high) / 2
      let L := max_subarray arr fuel low mid
      let R := max_subarray arr fuel (mid + 1) high
      let C := max_crossing_sum arr low mid high
      if L.2.2 ≥ R.2.2 ∧ L.2.2 ≥ C.2.2 then L
      else if R.2.2 ≥ L.2.2 ∧ R.2.2 ≥ C.2.2 then R
      else C

/-- `FinancialAnalyzer.find_maximum_subarray(prices)`: build the delta array
`price_changes`, run `max_subarray` on it, and shift the end index by one. -/
def find_maximum_subarray (prices : List ℚ) : MaximumSubarrayResult :=
  if prices = [] then ⟨0, 0, ((0 : ℚ) : WithBot ℚ)⟩
  else
    let price_changes := (List.range (prices.length - 1)).map
      (fun i => prices.getD (i + 1) 0 - prices.getD i 0)
    if price_changes = [] then ⟨0, 0, ((0 : ℚ) : WithBot ℚ)⟩
    else
      let r := max_subarray price_changes price_changes.length 0
        (price_changes.length - 1)
      ⟨r.1, r.2.1 + 1, r.2.2⟩

/-- The literal sum `Σ price[i+1] - price[i]` for `i ∈ [s, e-1]` — the gain
of window `[s, e]` as the specification words it. -/
def deltaSum (prices : List ℚ) (s e : ℕ) : ℚ :=
  ((List.range' s (e - s)).map
    (fun i => prices.getD (i + 1) 0 - prices.getD i 0)).sum

/-- The comparison `distance(p1, p2) > threshold` of `find_closest_pairs`,
where `distance` is `np.sqrt(time_diff**2 + price_diff**2)` with
`time_diff = (p2[0] - p1[0]).total_seconds() / 86400` and
`price_diff = abs(p2[1] - p1[1]) / p1[1]`. Python float division raises
`ZeroDivisionError` when `p1[1] == 0`. Only this comparison ever consumes
the distance, so the square root is embedded on squares: for `s ≥ 0`
(always true for a sum of two squares), `sqrt s > t ↔ t < 0 ∨ t^2 < s`. -/
def distGtThreshold (p1 p2 : ℚ × ℚ) (threshold : ℚ) : Except PyError Bool :=
  if p1.2 = 0 then .error .zeroDivision
  else
    .ok (decide (threshold < 0 ∨ threshold ^ 2 <
      ((p2.1 - p1.1) / 86400) ^ 2 + (|p2.2 - p1.2| / p1.2) ^ 2))

/-- The `AnomalyReport` built for an exceeding pair: reported point is the
second of the pair, `expected` the first point's price, deviation
`abs(points[j][1] - expected) / expected * 100` (only evaluated after
`distance` succeeded, hence with a nonzero denominator). -/
def pairDeviation (p q : ℚ × ℚ) : AnomalyReport :=
  ⟨q.1, q.2, p.2, |q.2 - p.2| / p.2 * 100⟩

/-- Index pairs of the brute-force base case:
`for i in range(start, stop): for j in range(i + 1, stop)`. -/
def pairIndices (start stop : ℕ) : List (ℕ × ℕ) :=
  (List.range' start (stop - start)).flatMap
    (fun i => (List.range' (i + 1) (stop - (i + 1))).map (fun j => (i, j)))

/-- Index pairs of the strip scan over a strip of length `n`:
`for i in range(len(strip)): for j in range(i + 1, min(i + 7, len(strip)))`. -/
def stripPairs (n : ℕ) : List (ℕ × ℕ) :=
  (List.range n).flatMap
    (fun i => (List.range' (i + 1) (min (i + 7) n - (i + 1))).map
      (fun j => (i, j)))

/-- The shared pair-scanning loop of `closest_pair_rec` (both the brute-force
base case and the strip scan): for each index pair, test the distance
(propagating a `ZeroDivisionError` exactly where Python would raise it) and
append an `AnomalyReport` for each exceeding pair, in iteration order. -/
def brutePairs (points : List (ℚ × ℚ)) (threshold : ℚ) :
    List (ℕ × ℕ) → Except PyError (List AnomalyReport)
  | [] => .ok []
  | (i, j) :: rest =>
    match distGtThreshold (points.getD i (0, 0)) (points.getD j (0, 0))
        threshold with
    | .error e => .error e
    | .ok exceeds =>
      match brutePairs points threshold rest with
      | .error e => .error e
      | .ok tail =>
        if exceeds then
          .ok (pairDeviation (points.getD i (0, 0)) (points.getD j (0, 0)) ::
            tail)
        else .ok tail

/-- Stable keyed insertion, auxiliary to `sortKeyed`. -/
def insertKeyed (key : ℚ × ℚ → ℚ) (p : ℚ × ℚ) :
    List (ℚ × ℚ) → List (ℚ × ℚ)
  | [] => [p]
  | q :: rest =>
    if key q < key p then q :: insertKeyed key p rest else p :: q :: rest

/-- Models Python's stable sorts with a key function
(`sorted(points, key=lambda x: x[0])` and `strip.sort(key=lambda x: x[1])`):
a stable insertion sort. -/
def sortKeyed (key : ℚ × ℚ → ℚ) : List (ℚ × ℚ) → List (ℚ × ℚ)
  | [] => []
  | p :: rest => insertKeyed key p (sortKeyed key rest)

/-- `closest_pair_rec(points, start, end)` with explicit recursion fuel
(callers pass fuel `> stop - start`, proved sufficient below; local
variables `mid`, `mid_point`, `strip` are written out inline). The strip
keeps the points of `range(start, stop)` within `threshold * 86400` seconds
of the midpoint timestamp, sorted by price. -/
def closest_pair_rec (points : List (ℚ × ℚ)) (threshold : ℚ) :
    ℕ → ℕ → ℕ → Except PyError (List AnomalyReport)
  | 0, _, _ => .error .outOfFuel
  | fuel + 1, start, stop =>
    if stop - start ≤ 3 then
      brutePairs points threshold (pairIndices start stop)
    else
      match closest_pair_rec points threshold fuel start ((start + stop) / 2)
          with
      | .error e => .error e
      | .ok left_anomalies =>
        match closest_pair_rec points threshold fuel ((start + stop) / 2)
            stop with
        | .error e => .error e
        | .ok right_anomalies =>
          match brutePairs
              (sortKeyed (fun x => x.2) (((List.range' start (stop - start)).map
                (fun i => points.getD i (0, 0))).filter
                  (fun p => decide (|p.1 -
                    (points.getD ((start + stop) / 2) (0, 0)).1| ≤
                      threshold * 86400))))
              threshold
              (stripPairs (sortKeyed (fun x => x.2) (((List.range' start
                (stop - start)).map
                (fun i => points.getD i (0, 0))).filter
                  (fun p => decide (|p.1 -
                    (points.getD ((start + stop) / 2) (0, 0)).1| ≤
                      threshold * 86400)))).length) with
          | .error e => .error e
          | .ok strip_anomalies =>
            .ok (left_anomalies ++ right_anomalies ++ strip_anomalies)

/-- `FinancialAnalyzer.find_closest_pairs(points, threshold)`: sort the
points by timestamp, then run the recursive scan over the full index
range. -/
def find_closest_pairs (points : List (ℚ × ℚ)) (threshold : ℚ) :
    Except PyError (List AnomalyReport) :=
  closest_pair_rec (sortKeyed (fun x => x.1) points) threshold
    ((sortKeyed (fun x => x.1) points).length + 1) 0 (sortKeyed (fun x => x.1) points).length

/-- The property C6 asserts of every emitted record: it was emitted for the
later in time of the two points of some exceeding pair of input points,
with deviation the relative price difference (as a percentage) from the
earlier point's price. -/
def emittedForLaterPoint (pts : List (ℚ × ℚ)) (r : AnomalyReport) : Prop :=
  ∃ p ∈ pts, ∃ q ∈ pts,
    r.timestamp = q.1 ∧ r.value = q.2 ∧ r.expected_value = p.2 ∧
    p.1 ≤ q.1 ∧ r.deviation_percentage = |q.2 - p.2| / p.2 * 100

/-- Mean of a list of rationals (`sum / len`). -/
def meanQ (l : List ℚ) : ℚ := l.sum / l.length

/-- Population variance of a list of rationals; the standard deviation is
its (generally irrational) square root, so the embedding carries the
variance and compares squares. -/
def varPopQ (l : List ℚ) : ℚ :=
  (l.map (fun x => (x - meanQ l) ^ 2)).sum / l.length

/-- Minimum of a list of rationals (0 for an empty list, never consumed). -/
def minQ : List ℚ → ℚ
  | [] => 0
  | x :: xs => xs.foldl min x

/-- Maximum of a list of rationals (0 for an empty list, never consumed). -/
def maxQ : List ℚ → ℚ
  | [] => 0
  | x :: xs => xs.foldl max x

/-- Modelled from the spec: `load_data(timestamps, prices, volumes=None)` is
called by the tests and `main.py` but is absent from `algorithm.py`.
Per §6/§7 it fails with a validation error on an empty input sequence or on
mismatched parallel-array lengths, before any core algorithm runs;
otherwise it builds the `FinancialDataPoint` sequence (storing `None`
volumes when no volume array is given, as `test_load_data` asserts). -/
def load_data (timestamps prices : List ℚ) (volumes : Option (List ℚ)) :
    Except PyError (List FinancialDataPoint) :=
  if timestamps.length = 0 then .error .valueError
  else if timestamps.length ≠ prices.length then .error .valueError
  else
    match volumes with
    | none =>
      .ok ((timestamps.zip prices).map (fun tp => ⟨tp.1, tp.2, none⟩))
    | some vs =>
      if timestamps.length ≠ vs.length then .error .valueError
      else
        .ok (((timestamps.zip prices).zip vs).map
          (fun tpv => ⟨tpv.1.1, tpv.1.2, some tpv.2⟩))

/-- The `max_gain_period` sub-dictionary of the analysis report. -/
structure MaxGainPeriod where
  start_date : ℚ
  end_date : ℚ
  total_gain : WithBot ℚ
  deriving Repr, DecidableEq

/-- The report dictionary built by `analyze_financial_data`. -/
structure AnalysisReport where
  data_points : ℕ
  start_date : ℚ
  end_date : ℚ
  max_gain_period : MaxGainPeriod
  anomalies : List AnomalyReport
  deriving Repr, DecidableEq

/-- `FinancialAnalyzer.analyze_financial_data(data, anomaly_threshold)`:
sort, extract prices, run the gain search and the spatial anomaly scan,
then build the report (`self.data[0]` / `self.data[-1]` raise `IndexError`
on an empty series, after the anomaly scan already ran). -/
def analyze_financial_data (data : List FinancialDataPoint)
    (anomaly_threshold : ℚ) : Except PyError AnalysisReport :=
  match find_closest_pairs ((merge_sort data).map
      (fun p => (p.timestamp, p.price))) anomaly_threshold with
  | .error e => .error e
  | .ok anomalies =>
    match merge_sort data with
    | [] => .error .indexError
    | first :: rest =>
      .ok
        { data_points := (merge_sort data).length
          start_date := first.timestamp
          end_date := ((first :: rest).getLast (by simp)).timestamp
          max_gain_period :=
            { start_date := ((merge_sort data).getD
                (find_maximum_subarray ((merge_sort data).map
                  (·.price))).start_index ⟨0, 0, none⟩).timestamp
              end_date := ((merge_sort data).getD
                (find_maximum_subarray ((merge_sort data).map
                  (·.price))).end_index ⟨0, 0, none⟩).timestamp
              total_gain := (find_maximum_subarray ((merge_sort data).map
                (·.price))).sum_value }
          anomalies := anomalies }

/-- Modelled from the spec: the load-then-analyze pipeline (`main.py` and
the tests call `load_data` and then run the analysis); the core runs only
on successfully loaded data. -/
def loadAndAnalyze (timestamps prices : List ℚ) (volumes : Option (List ℚ))
    (anomaly_threshold : ℚ) : Except PyError AnalysisReport :=
  match load_data timestamps prices volumes with
  | .error e => .error e
  | .ok data => analyze_financial_data data anomaly_threshold

/-- Volume (or price) statistics of a report; the standard deviation is the
square root of `varPop`, irrational in general, so the population variance
is carried instead. -/
structure StatsQ where
  mean : ℚ
  varPop : ℚ
  minV : ℚ
  maxV : ℚ
  deriving Repr, DecidableEq

/-- The statistics of a value list. -/
def statsOf (l : List ℚ) : StatsQ :=
  ⟨meanQ l, varPopQ l, minQ l, maxQ l⟩

/-- The report built by `generate_report` (modelled from the spec, §4.4 and
the test suite's shape). -/
structure FullReport where
  data_points : ℕ
  date_range_start : ℚ
  date_range_end : ℚ
  price_statistics : StatsQ
  max_gain_period : MaximumSubarrayResult
  anomalies : List AnomalyReport
  volume_statistics : Option StatsQ
  deriving Repr, DecidableEq

/-- Modelled from the spec: `generate_report` is called by the tests and
`main.py` but is absent from `algorithm.py`. Per §4.4 it aggregates the
sorted series, price statistics (population), the gain window and the
anomaly list, computes volume statistics only over the subset of points
that carry a volume value, and includes `volume_statistics` only if that
subset is non-empty. -/
def generate_report (data : List FinancialDataPoint)
    (anomalies : List AnomalyReport) : FullReport :=
  { data_points := data.length
    date_range_start := ((data.getD 0 ⟨0, 0, none⟩)).timestamp
    date_range_end := ((data.getD (data.length - 1) ⟨0, 0, none⟩)).timestamp
    price_statistics := statsOf (data.map (·.price))
    max_gain_period := find_maximum_subarray (data.map (·.price))
    anomalies := anomalies
    volume_statistics :=
      if (data.filterMap (·.volume)).isEmpty then none
      else some (statsOf (data.filterMap (·.volume))) }

/-- Anomaly kinds of the specification's data model. -/
inductive AnomalyKind where
  | spike
  | drop
  | spatialOutlier
  deriving Repr, DecidableEq

/-- A rolling z-score anomaly record (modelled from the spec): the z-score
`z = (price - mean) / std` is irrational in general, so the record carries
the numerator `devNum = price - rolling_mean` and the rolling population
variance `rollVar` (`z = devNum / sqrt rollVar`); the emission test
`|z| > threshold` is embedded on squares. -/
structure ZAnomaly where
  timestamp : ℚ
  value : ℚ
  kind : AnomalyKind
  devNum : ℚ
  rollVar : ℚ
  deriving Repr, DecidableEq

/-- Modelled from the spec: `detect_anomalies(window_size, threshold=2.0)`
is called by the tests but is absent from `algorithm.py`. Per §4.3/§7:
non-positive configuration fails fast; for each point at position
`i ≥ window_size`, the mean and population standard deviation of the
trailing window `[i - window_size, i - 1]` are computed; a zero rolling
standard deviation emits nothing; `|z| > threshold` emits a Spike (`z > 0`)
or Drop (`z < 0`); fewer than `window_size` points yield no anomalies. -/
def detect_anomalies (data : List FinancialDataPoint) (window_size : ℕ)
    (threshold : ℚ) : Except PyError (List ZAnomaly) :=
  if window_size = 0 ∨ threshold ≤ 0 then .error .valueError
  else
    .ok ((List.range data.length).filterMap (fun i =>
      if window_size ≤ i then
        if varPopQ (((data.drop (i - window_size)).take window_size).map
            (·.price)) = 0 then none
        else
          if threshold ^ 2 * varPopQ (((data.drop (i - window_size)).take
              window_size).map (·.price)) <
              ((data.getD i ⟨0, 0, none⟩).price -
                meanQ (((data.drop (i - window_size)).take window_size).map
                  (·.price))) ^ 2 then
            some ⟨(data.getD i ⟨0, 0, none⟩).timestamp,
              (data.getD i ⟨0, 0, none⟩).price,
              if meanQ (((data.drop (i - window_size)).take window_size).map
                  (·.price)) < (data.getD i ⟨0, 0, none⟩).price then
                .spike
              else .drop,
              (data.getD i ⟨0, 0, none⟩).price -
                meanQ (((data.drop (i - window_size)).take window_size).map
                  (·.price)),
              varPopQ (((data.drop (i - window_size)).take window_size).map
                (·.price))⟩
          else none
      else none))

theorem sumRange_self (arr : List ℚ) (a : ℕ) : sumRange arr a a = 0 := by
  simp [sumRange]

theorem sumRange_succ_left (arr : List ℚ) {a b : ℕ} (h : a < b) :
    sumRange arr a b = arr.getD a 0 + sumRange arr (a + 1) b := by
  unfold sumRange
  have hb : b - a = (b - (a + 1)) + 1 := by omega
  rw [hb, List.range'_succ]
  simp

theorem sumRange_succ_right (arr : List ℚ) {a b : ℕ} (h : a ≤ b) :
    sumRange arr a (b + 1) = sumRange arr a b + arr.getD b 0 := by
  unfold sumRange
  have h1 : b + 1 - a = (b - a) + 1 := by omega
  rw [h1, List.range'_concat]
  have h2 : a + 1 * (b - a) = b := by omega
  rw [h2]
  simp

theorem sumRange_append (arr : List ℚ) {a b c : ℕ} (hab : a ≤ b)
    (hbc : b ≤ c) :
    sumRange arr a c = sumRange arr a b + sumRange arr b c := by
  unfold sumRange
  have h1 : c - a = (c - b) + (b - a) := by omega
  rw [h1, ← List.range'_append]
  have h2 : a + 1 * (b - a) = b := by omega
  rw [h2, List.map_append, List.sum_append]

theorem crossLeftGo_spec (arr : List ℚ) (mid lowB : ℕ) :
    ∀ cnt i sum_temp best bestIdx,
      (0 < cnt → cnt ≤ i + 1 ∧ i + 1 ≤ mid ∧ lowB + cnt ≤ i + 1 ∧
        sum_temp = sumRange arr (i + 1) mid) →
      (best = ⊥ ∧ bestIdx = mid ∨
        ∃ q : ℚ, best = (q : WithBot ℚ) ∧ q = sumRange arr bestIdx mid ∧
          lowB ≤ bestIdx ∧ bestIdx < mid) →
      (crossLeftGo arr i cnt sum_temp best bestIdx).1 = ⊥ ∧
          (crossLeftGo arr i cnt sum_temp best bestIdx).2 = mid ∨
        ∃ q : ℚ,
          (crossLeftGo arr i cnt sum_temp best bestIdx).1 = (q : WithBot ℚ) ∧
          q = sumRange arr (crossLeftGo arr i cnt sum_temp best bestIdx).2 mid ∧
          lowB ≤ (crossLeftGo arr i cnt sum_temp best bestIdx).2 ∧
          (crossLeftGo arr i cnt sum_temp best bestIdx).2 < mid := by
  intro cnt
  induction cnt with
  | zero => intro i sum_temp best bestIdx _ hbest; exact hbest
  | succ cnt ih =>
    intro i sum_temp best bestIdx hloop hbest
    obtain ⟨h1, h2, h3, h4⟩ := hloop (Nat.succ_pos cnt)
    have hi1 : i < mid := by omega
    have hs : sum_temp + arr.getD i 0 = sumRange arr i mid := by
      rw [h4, sumRange_succ_left arr hi1]; ring
    rw [crossLeftGo]
    by_cases hlt : best < ((sum_temp + arr.getD i 0 : ℚ) : WithBot ℚ)
    · simp only [hlt, if_true]
      refine ih (i - 1) _ _ _ ?_ ?_
      · intro hc
        have hi : 1 ≤ i := by omega
        have hii : i - 1 + 1 = i := by omega
        rw [hii]
        exact ⟨by omega, by omega, by omega, hs⟩
      · exact Or.inr ⟨sum_temp + arr.getD i 0, rfl, hs, by omega, hi1⟩
    · simp only [hlt, if_false]
      refine ih (i - 1) _ _ _ ?_ hbest
      intro hc
      have hii : i - 1 + 1 = i := by omega
      rw [hii]
      exact ⟨by omega, by omega, by omega, hs⟩

theorem crossRightGo_spec (arr : List ℚ) (mid highB : ℕ) :
    ∀ cnt i sum_temp best bestIdx,
      (0 < cnt → mid + 1 ≤ i ∧ i + cnt ≤ highB + 1 ∧
        sum_temp = sumRange arr (mid + 1) i) →
      (best = ⊥ ∧ bestIdx = mid + 1 ∨
        ∃ q : ℚ, best = (q : WithBot ℚ) ∧
          q = sumRange arr (mid + 1) (bestIdx + 1) ∧
          mid + 1 ≤ bestIdx ∧ bestIdx ≤ highB) →
      (crossRightGo arr i cnt sum_temp best bestIdx).1 = ⊥ ∧
          (crossRightGo arr i cnt sum_temp best bestIdx).2 = mid + 1 ∨
        ∃ q : ℚ,
          (crossRightGo arr i cnt sum_temp best bestIdx).1 = (q : WithBot ℚ) ∧
          q = sumRange arr (mid + 1)
            ((crossRightGo arr i cnt sum_temp best bestIdx).2 + 1) ∧
          mid + 1 ≤ (crossRightGo arr i cnt sum_temp best bestIdx).2 ∧
          (crossRightGo arr i cnt sum_temp best bestIdx).2 ≤ highB := by
  intro cnt
  induction cnt with
  | zero => intro i sum_temp best bestIdx _ hbest; exact hbest
  | succ cnt ih =>
    intro i sum_temp best bestIdx hloop hbest
    obtain ⟨h1, h2, h3⟩ := hloop (Nat.succ_pos cnt)
    have hs : sum_temp + arr.getD i 0 = sumRange arr (mid + 1) (i + 1) := by
      rw [h3, ← sumRange_succ_right arr h1]
    rw [crossRightGo]
    by_cases hlt : best < ((sum_temp + arr.getD i 0 : ℚ) : WithBot ℚ)
    · simp only [hlt, if_true]
      refine ih (i + 1) _ _ _ ?_ ?_
      · intro hc
        exact ⟨by omega, by omega, hs⟩
      · exact Or.inr ⟨sum_temp + arr.getD i 0, rfl, hs, h1, by omega⟩
    · simp only [hlt, if_false]
      refine ih (i + 1) _ _ _ ?_ hbest
      intro hc
      exact ⟨by omega, by omega, hs⟩

theorem max_crossing_sum_spec (arr : List ℚ) (low mid high : ℕ)
    (hlm : low ≤ mid) (hmh : mid ≤ high) :
    ∀ ml mr cs, max_crossing_sum arr low mid high = (ml, mr, cs) →
      cs = ⊥ ∨ ∃ q : ℚ, cs = (q : WithBot ℚ) ∧ q = sumRange arr ml (mr + 1) ∧
        low ≤ ml ∧ ml ≤ mr ∧ mr ≤ high := by
  intro ml mr cs heq
  have hL := crossLeftGo_spec arr mid low (mid - low) (mid - 1) 0 ⊥ mid
    (by
      intro hc
      have hm : mid - 1 + 1 = mid := by omega
      rw [hm]
      exact ⟨by omega, le_refl mid, by omega, (sumRange_self arr mid).symm⟩)
    (Or.inl ⟨rfl, rfl⟩)
  have hR := crossRightGo_spec arr mid high (high - mid) (mid + 1) 0 ⊥ (mid + 1)
    (by
      intro hc
      exact ⟨le_refl _, by omega, (sumRange_self arr (mid + 1)).symm⟩)
    (Or.inl ⟨rfl, rfl⟩)
  rw [max_crossing_sum] at heq
  simp only [Prod.mk.injEq] at heq
  obtain ⟨hml, hmr, hcs⟩ := heq
  rcases hL with ⟨hL1, hL2⟩ | ⟨ql, hql, hqleq, hqlb1, hqlb2⟩
  · left
    rw [← hcs, hL1, WithBot.bot_add, WithBot.bot_add]
  rcases hR with ⟨hR1, hR2⟩ | ⟨qr, hqr, hqreq, hqrb1, hqrb2⟩
  · left
    rw [← hcs, hR1, WithBot.add_bot]
  subst hml
  subst hmr
  right
  refine ⟨ql + arr.getD mid 0 + qr, ?_, ?_, hqlb1, by omega, hqrb2⟩
  · rw [← hcs, hql, hqr, WithBot.coe_add, WithBot.coe_add]
  · rw [hqleq, hqreq]
    have e3 : sumRange arr mid (mid + 1) = arr.getD mid 0 := by
      rw [sumRange_succ_left arr (Nat.lt_succ_self mid), sumRange_self,
        add_zero]
    rw [sumRange_append arr
        (le_of_lt hqlb2 : (crossLeftGo arr (mid - 1) (mid - low) 0 ⊥ mid).2 ≤
          mid)
        (by omega : mid ≤
          (crossRightGo arr (mid + 1) (high - mid) 0 ⊥ (mid + 1)).2 + 1),
      sumRange_append arr (Nat.le_succ mid)
        (by omega : mid + 1 ≤
          (crossRightGo arr (mid + 1) (high - mid) 0 ⊥ (mid + 1)).2 + 1),
      e3]
    ring

theorem max_subarray_succ_eq (arr : List ℚ) (fuel low high : ℕ) :
    max_subarray arr (fuel + 1) low high =
      if high = low then (low, high, ((arr.getD low 0 : ℚ) : WithBot ℚ))
      else
        if (max_subarray arr fuel low ((low + high) / 2)).2.2 ≥
              (max_subarray arr fuel ((low + high) / 2 + 1) high).2.2 ∧
            (max_subarray arr fuel low ((low + high) / 2)).2.2 ≥
              (max_crossing_sum arr low ((low + high) / 2) high).2.2 then
          max_subarray arr fuel low ((low + high) / 2)
        else
          if (max_subarray arr fuel ((low + high) / 2 + 1) high).2.2 ≥
                (max_subarray arr fuel low ((low + high) / 2)).2.2 ∧
              (max_subarray arr fuel ((low + high) / 2 + 1) high).2.2 ≥
                (max_crossing_sum arr low ((low + high) / 2) high).2.2 then
            max_subarray arr fuel ((low + high) / 2 + 1) high
          else max_crossing_sum arr low ((low + high) / 2) high := rfl

theorem max_subarray_spec (arr : List ℚ) :
    ∀ fuel low high, low ≤ high → high - low < fuel →
      ∀ s e g, max_subarray arr fuel low high = (s, e, g) →
        low ≤ s ∧ s ≤ e ∧ e ≤ high ∧
          g = ((sumRange arr s (e + 1) : ℚ) : WithBot ℚ) := by
  intro fuel
  induction fuel with
  | zero => intro low high _ hf; omega
  | succ fuel ih =>
    intro low high hle hf s e g heq
    rw [max_subarray_succ_eq] at heq
    by_cases hbc : high = low
    · rw [if_pos hbc] at heq
      simp only [Prod.mk.injEq] at heq
      obtain ⟨h1', h2', h3'⟩ := heq
      subst h1'
      subst h2'
      subst h3'
      refine ⟨le_refl _, hle, le_refl _, ?_⟩
      rw [hbc, sumRange_succ_left arr (Nat.lt_succ_self low), sumRange_self,
        add_zero]
    · rw [if_neg hbc] at heq
      rcases hLe : max_subarray arr fuel low ((low + high) / 2) with
        ⟨ls, le', lg⟩
      rcases hRe : max_subarray arr fuel ((low + high) / 2 + 1) high with
        ⟨rs, re', rg⟩
      rcases hCe : max_crossing_sum arr low ((low + high) / 2) high with
        ⟨cs', ce', cg⟩
      rw [hLe, hRe, hCe] at heq
      simp only at heq
      have hLs := ih low ((low + high) / 2) (by omega) (by omega) ls le' lg hLe
      have hRs := ih ((low + high) / 2 + 1) high (by omega) (by omega)
        rs re' rg hRe
      have hCs := max_crossing_sum_spec arr low ((low + high) / 2) high
        (by omega) (by omega) cs' ce' cg hCe
      split_ifs at heq with h1 h2
      · simp only [Prod.mk.injEq] at heq
        obtain ⟨rfl, rfl, rfl⟩ := heq
        exact ⟨hLs.1, hLs.2.1, by omega, hLs.2.2.2⟩
      · simp only [Prod.mk.injEq] at heq
        obtain ⟨rfl, rfl, rfl⟩ := heq
        exact ⟨by omega, hRs.2.1, hRs.2.2.1, hRs.2.2.2⟩
      · simp only [Prod.mk.injEq] at heq
        obtain ⟨rfl, rfl, rfl⟩ := heq
        have hcgne : cg ≠ ⊥ := by
          rcases le_total rg lg with hlr | hlr
          · have hlt : lg < cg := by
              by_contra hnot
              exact h1 ⟨hlr, le_of_not_lt hnot⟩
            intro hbot
            rw [hbot, hLs.2.2.2] at hlt
            exact (not_lt_bot hlt)
          · have hlt : rg < cg := by
              by_contra hnot
              exact h2 ⟨hlr, le_of_not_lt hnot⟩
            intro hbot
            rw [hbot, hRs.2.2.2] at hlt
            exact (not_lt_bot hlt)
        rcases hCs with hbot | ⟨q, hq1, hq2, hq3, hq4, hq5⟩
        · exact absurd hbot hcgne
        · exact ⟨hq3, hq4, hq5, by rw [hq1, hq2]⟩

theorem find_maximum_subarray_eq (prices : List ℚ) :
    find_maximum_subarray prices =
      if prices = [] then ⟨0, 0, ((0 : ℚ) : WithBot ℚ)⟩
      else
        if (List.range (prices.length - 1)).map
            (fun i => prices.getD (i + 1) 0 - prices.getD i 0) = [] then
          ⟨0, 0, ((0 : ℚ) : WithBot ℚ)⟩
        else
          ⟨(max_subarray
              ((List.range (prices.length - 1)).map
                (fun i => prices.getD (i + 1) 0 - prices.getD i 0))
              ((List.range (prices.length - 1)).map
                (fun i => prices.getD (i + 1) 0 - prices.getD i 0)).length 0
              (((List.range (prices.length - 1)).map
                (fun i => prices.getD (i + 1) 0 -
                  prices.getD i 0)).length - 1)).1,
            (max_subarray
              ((List.range (prices.length - 1)).map
                (fun i => prices.getD (i + 1) 0 - prices.getD i 0))
              ((List.range (prices.length - 1)).map
                (fun i => prices.getD (i + 1) 0 - prices.getD i 0)).length 0
              (((List.range (prices.length - 1)).map
                (fun i => prices.getD (i + 1) 0 -
                  prices.getD i 0)).length - 1)).2.1 + 1,
            (max_subarray
              ((List.range (prices.length - 1)).map
                (fun i => prices.getD (i + 1) 0 - prices.getD i 0))
              ((List.range (prices.length - 1)).map
                (fun i => prices.getD (i + 1) 0 - prices.getD i 0)).length 0
              (((List.range (prices.length - 1)).map
                (fun i => prices.getD (i + 1) 0 -
                  prices.getD i 0)).length - 1)).2.2⟩ := rfl

theorem find_maximum_subarray_spec_aux (prices : List ℚ)
    (h : 1 ≤ prices.length) (r : MaximumSubarrayResult)
    (hr : find_maximum_subarray prices = r) :
    r.start_index ≤ r.end_index ∧ r.end_index ≤ prices.length - 1 ∧
      r.sum_value =
        ((deltaSum prices r.start_index r.end_index : ℚ) : WithBot ℚ) := by
  have hne : ¬(prices = []) := by
    intro h0; rw [h0] at h; simp at h
  rw [find_maximum_subarray_eq, if_neg hne] at hr
  by_cases h1 : prices.length = 1
  · have hpc : (List.range (prices.length - 1)).map
        (fun i => prices.getD (i + 1) 0 - prices.getD i 0) = [] := by
      rw [h1]; rfl
    rw [hpc, if_pos rfl] at hr
    subst hr
    refine ⟨le_refl _, by show 0 ≤ prices.length - 1; omega, ?_⟩
    simp [deltaSum]
  · have hlen2 : 2 ≤ prices.length := by omega
    have hpclen : ((List.range (prices.length - 1)).map
        (fun i => prices.getD (i + 1) 0 - prices.getD i 0)).length =
          prices.length - 1 := by
      simp
    have hpcne : ¬((List.range (prices.length - 1)).map
        (fun i => prices.getD (i + 1) 0 - prices.getD i 0) = []) := by
      intro h0
      rw [h0] at hpclen
      simp at hpclen
      omega
    rw [if_neg hpcne] at hr
    rcases hMe : max_subarray
        ((List.range (prices.length - 1)).map
          (fun i => prices.getD (i + 1) 0 - prices.getD i 0))
        ((List.range (prices.length - 1)).map
          (fun i => prices.getD (i + 1) 0 - prices.getD i 0)).length 0
        (((List.range (prices.length - 1)).map
          (fun i => prices.getD (i + 1) 0 - prices.getD i 0)).length - 1) with
      ⟨ms, me, mg⟩
    rw [hMe] at hr
    have hspec := max_subarray_spec _ _ 0 _ (by rw [hpclen]; omega)
      (by rw [hpclen]; omega) ms me mg hMe
    subst hr
    simp only
    rw [hpclen] at hspec
    refine ⟨by omega, by omega, ?_⟩
    rw [hspec.2.2.2]
    congr 1
    unfold sumRange deltaSum
    congr 1
    apply List.map_congr_left
    intro i hi
    rw [List.mem_range'_1] at hi
    have hilt : i < prices.length - 1 := by omega
    rw [List.getD_eq_getElem _ _ (by simpa using hilt), List.getElem_map,
      List.getElem_range]

theorem mergeHalves_perm (l r : List FinancialDataPoint) :
    List.Perm (mergeHalves l r) (l ++ r) := by
  induction l generalizing r with
  | nil => simp [mergeHalves]
  | cons a l ih =>
    induction r with
    | nil => simp [mergeHalves]
    | cons b r ihr =>
      by_cases h : a.timestamp ≤ b.timestamp
      · simpa [mergeHalves, h] using (ih (b :: r)).cons a
      · simp only [mergeHalves, if_neg h]
        exact (ihr.cons b).trans List.perm_middle.symm

theorem merge_sort_perm (arr : List FinancialDataPoint) :
    List.Perm (merge_sort arr) arr := by
  induction arr using merge_sort.induct with
  | case1 arr h => rw [merge_sort, dif_pos h]
  | case2 arr h ih1 ih2 =>
    rw [merge_sort, dif_neg h]
    refine (mergeHalves_perm _ _).trans ?_
    refine ((ih1.append ih2).trans ?_)
    rw [List.take_append_drop]

theorem mergeHalves_sorted {l r : List FinancialDataPoint}
    (hl : l.Sorted tsLE) (hr : r.Sorted tsLE) :
    (mergeHalves l r).Sorted tsLE := by
  induction l generalizing r with
  | nil => simpa [mergeHalves] using hr
  | cons a l ih =>
    induction r with
    | nil => simpa [mergeHalves] using hl
    | cons b r ihr =>
      rw [List.sorted_cons] at hl hr
      by_cases h : a.timestamp ≤ b.timestamp
      · rw [mergeHalves, if_pos h, List.sorted_cons]
        refine ⟨?_, ih hl.2 (List.sorted_cons.mpr hr)⟩
        intro x hx
        rcases List.mem_append.mp
            ((mergeHalves_perm l (b :: r)).mem_iff.mp hx) with hx' | hx'
        · exact hl.1 x hx'
        · rcases List.mem_cons.mp hx' with rfl | hx''
          · exact h
          · exact le_trans h (hr.1 x hx'')
      · rw [mergeHalves, if_neg h, List.sorted_cons]
        have hba : b.timestamp ≤ a.timestamp := le_of_not_le h
        refine ⟨?_, ihr hr.2⟩
        intro x hx
        rcases List.mem_append.mp
            ((mergeHalves_perm (a :: l) r).mem_iff.mp hx) with hx' | hx'
        · rcases List.mem_cons.mp hx' with rfl | hx''
          · exact hba
          · exact le_trans hba (hl.1 x hx'')
        · exact hr.1 x hx'

theorem merge_sort_sorted (arr : List FinancialDataPoint) :
    (merge_sort arr).Sorted tsLE := by
  induction arr using merge_sort.induct with
  | case1 arr h =>
    rw [merge_sort, dif_pos h]
    match arr, h with
    | [], _ => simp
    | [a], _ => simp
  | case2 arr h ih1 ih2 =>
    rw [merge_sort, dif_neg h]
    exact mergeHalves_sorted ih1 ih2

theorem mergeHalves_atKey (t : ℚ) {l : List FinancialDataPoint}
    (r : List FinancialDataPoint) (hl : l.Sorted tsLE) :
    atKey t (mergeHalves l r) = atKey t l ++ atKey t r := by
  induction l generalizing r with
  | nil => simp [mergeHalves, atKey]
  | cons a l ih =>
    induction r with
    | nil => simp [mergeHalves, atKey]
    | cons b r ihr =>
      rw [List.sorted_cons] at hl
      by_cases h : a.timestamp ≤ b.timestamp
      · have hrec := ih (b :: r) hl.2
        rw [mergeHalves, if_pos h]
        simp only [atKey] at hrec ⊢
        by_cases ha : a.timestamp = t <;> simp [List.filter_cons, ha, hrec]
      · rw [mergeHalves, if_neg h]
        have hba : b.timestamp < a.timestamp := lt_of_not_le h
        by_cases hb : b.timestamp = t
        · have hanil : atKey t (a :: l) = [] := by
            simp only [atKey, List.filter_eq_nil_iff, decide_eq_true_eq]
            intro x hx hxt
            rcases List.mem_cons.mp hx with rfl | hx'
            · exact absurd (hxt.trans hb.symm) (ne_of_gt hba)
            · exact h (by rw [hb, ← hxt]; exact hl.1 x hx')
          have hrec := ihr
          simp only [atKey] at hrec hanil ⊢
          rw [hanil] at hrec
          simp only [List.nil_append] at hrec
          simp [List.filter_cons, hb, hrec, hanil]
        · have hrec := ihr
          simp only [atKey] at hrec ⊢
          simp [List.filter_cons, hb, hrec]

theorem merge_sort_atKey (t : ℚ) (arr : List FinancialDataPoint) :
    atKey t (merge_sort arr) = atKey t arr := by
  induction arr using merge_sort.induct with
  | case1 arr h => rw [merge_sort, dif_pos h]
  | case2 arr h ih1 ih2 =>
    rw [merge_sort, dif_neg h]
    rw [mergeHalves_atKey t _ (merge_sort_sorted _), ih1, ih2]
    rw [atKey, atKey, atKey, ← List.filter_append, List.take_append_drop]

theorem mergeHalves_of_le {l r : List FinancialDataPoint}
    (h : ∀ a ∈ l, ∀ b ∈ r, tsLE a b) : mergeHalves l r = l ++ r := by
  induction l with
  | nil => cases r <;> simp [mergeHalves]
  | cons a l ih =>
    cases r with
    | nil => simp [mergeHalves]
    | cons b r =>
      rw [mergeHalves,
        if_pos (show a.timestamp ≤ b.timestamp from h a (by simp) b (by simp))]
      rw [List.cons_append, ih (fun x hx y hy => h x (by simp [hx]) y hy)]

theorem merge_sort_of_sorted {arr : List FinancialDataPoint}
    (h : arr.Sorted tsLE) : merge_sort arr = arr := by
  induction arr using merge_sort.induct with
  | case1 arr hlen => rw [merge_sort, dif_pos hlen]
  | case2 arr hlen ih1 ih2 =>
    rw [merge_sort, dif_neg hlen]
    have htake : (arr.take (arr.length / 2)).Sorted tsLE :=
      h.sublist (List.take_sublist _ _)
    have hdrop : (arr.drop (arr.length / 2)).Sorted tsLE :=
      h.sublist (List.drop_sublist _ _)
    rw [ih1 htake, ih2 hdrop]
    have hcross : ∀ a ∈ arr.take (arr.length / 2),
        ∀ b ∈ arr.drop (arr.length / 2), tsLE a b := by
      have := h
      rw [← List.take_append_drop (arr.length / 2) arr,
        List.Sorted, List.pairwise_append] at this
      exact this.2.2
    rw [mergeHalves_of_le hcross, List.take_append_drop]

theorem mem_insertKeyed (key : ℚ × ℚ → ℚ) (p a : ℚ × ℚ) :
    ∀ l, a ∈ insertKeyed key p l ↔ a = p ∨ a ∈ l := by
  intro l
  induction l with
  | nil => simp [insertKeyed]
  | cons q rest ih =>
    rw [insertKeyed]
    by_cases h : key q < key p
    · rw [if_pos h]
      simp only [List.mem_cons, ih]
      tauto
    · rw [if_neg h]
      simp only [List.mem_cons]

theorem mem_sortKeyed (key : ℚ × ℚ → ℚ) (a : ℚ × ℚ) :
    ∀ l, a ∈ sortKeyed key l ↔ a ∈ l := by
  intro l
  induction l with
  | nil => simp [sortKeyed]
  | cons p rest ih =>
    rw [sortKeyed, mem_insertKeyed, ih, List.mem_cons]

theorem insertKeyed_pairwise (key : ℚ × ℚ → ℚ) (p : ℚ × ℚ) :
    ∀ l, l.Pairwise (fun a b => key a ≤ key b) →
      (insertKeyed key p l).Pairwise (fun a b => key a ≤ key b) := by
  intro l
  induction l with
  | nil => intro _; simp [insertKeyed]
  | cons q rest ih =>
    intro hl
    rw [List.pairwise_cons] at hl
    rw [insertKeyed]
    by_cases h : key q < key p
    · rw [if_pos h, List.pairwise_cons]
      refine ⟨?_, ih hl.2⟩
      intro b hb
      rcases (mem_insertKeyed key p b rest).mp hb with rfl | hb'
      · exact le_of_lt h
      · exact hl.1 b hb'
    · rw [if_neg h, List.pairwise_cons]
      refine ⟨?_, List.pairwise_cons.mpr hl⟩
      intro b hb
      rcases List.mem_cons.mp hb with rfl | hb'
      · exact le_of_not_lt h
      · exact le_trans (le_of_not_lt h) (hl.1 b hb')

theorem sortKeyed_pairwise (key : ℚ × ℚ → ℚ) :
    ∀ l, (sortKeyed key l).Pairwise (fun a b => key a ≤ key b) := by
  intro l
  induction l with
  | nil => simp [sortKeyed]
  | cons p rest ih => exact insertKeyed_pairwise key p _ ih

theorem getD_mem {α : Type} (l : List α) (i : ℕ) (d : α)
    (h : i < l.length) : l.getD i d ∈ l := by
  rw [List.getD_eq_getElem l d h]
  exact List.getElem_mem h

theorem pairIndices_mem (start stop i j : ℕ)
    (h : (i, j) ∈ pairIndices start stop) :
    start ≤ i ∧ i < j ∧ j < stop := by
  simp only [pairIndices, List.mem_flatMap, List.mem_map,
    List.mem_range'_1] at h
  obtain ⟨i', hi', j', hj', heq⟩ := h
  obtain ⟨rfl, rfl⟩ := Prod.mk.injEq .. ▸ heq
  omega

theorem stripPairs_mem (n i j : ℕ) (h : (i, j) ∈ stripPairs n) :
    i < j ∧ j < n := by
  simp only [stripPairs, List.mem_flatMap, List.mem_map, List.mem_range,
    List.mem_range'_1] at h
  obtain ⟨i', hi', j', hj', heq⟩ := h
  obtain ⟨rfl, rfl⟩ := Prod.mk.injEq .. ▸ heq
  omega

theorem distGtThreshold_error (p q : ℚ × ℚ) (θ : ℚ) (e : PyError)
    (h : distGtThreshold p q θ = .error e) : e = .zeroDivision := by
  rw [distGtThreshold] at h
  split at h
  · exact (Except.error.injEq .. ▸ h).symm
  · exact absurd h (by simp)

theorem brutePairs_ok_mem (points : List (ℚ × ℚ)) (θ : ℚ) :
    ∀ idxs out, brutePairs points θ idxs = .ok out →
      ∀ r ∈ out, ∃ ij ∈ idxs,
        r = pairDeviation (points.getD ij.1 (0, 0))
          (points.getD ij.2 (0, 0)) := by
  intro idxs
  induction idxs with
  | nil =>
    intro out h r hr
    rw [brutePairs] at h
    obtain rfl : ([] : List AnomalyReport) = out := Except.ok.injEq .. ▸ h
    simp at hr
  | cons ij rest ih =>
    intro out h r hr
    obtain ⟨i, j⟩ := ij
    rw [brutePairs] at h
    split at h
    · exact absurd h (by simp)
    · split at h
      · exact absurd h (by simp)
      · next tail heq2 =>
          split at h
          · obtain rfl := (Except.ok.injEq .. ▸ h)
            rcases List.mem_cons.mp hr with rfl | hr'
            · exact ⟨(i, j), by simp, rfl⟩
            · obtain ⟨ij', hij', hrr⟩ := ih tail heq2 r hr'
              exact ⟨ij', by simp [hij'], hrr⟩
          · obtain rfl := (Except.ok.injEq .. ▸ h)
            obtain ⟨ij', hij', hrr⟩ := ih _ heq2 r hr
            exact ⟨ij', by simp [hij'], hrr⟩

theorem brutePairs_ne_outOfFuel (points : List (ℚ × ℚ)) (θ : ℚ) :
    ∀ idxs, brutePairs points θ idxs ≠ .error .outOfFuel := by
  intro idxs
  induction idxs with
  | nil => rw [brutePairs]; simp
  | cons ij rest ih =>
    obtain ⟨i, j⟩ := ij
    rw [brutePairs]
    split
    · next e heq =>
        have := distGtThreshold_error _ _ _ _ heq
        simp [this]
    · split
      · next e heq =>
          rw [heq] at ih
          simpa using ih
      · split <;> simp

theorem closest_pair_rec_fuel (points : List (ℚ × ℚ)) (θ : ℚ) :
    ∀ fuel start stop, stop - start < fuel →
      closest_pair_rec points θ fuel start stop ≠
        Except.error PyError.outOfFuel := by
  intro fuel
  induction fuel with
  | zero => intro start stop h; omega
  | succ fuel ih =>
    intro start stop h
    rw [closest_pair_rec]
    split
    · exact brutePairs_ne_outOfFuel _ _ _
    · next hb =>
      split
      · next e heq =>
          have := ih start ((start + stop) / 2) (by omega)
          rw [heq] at this
          simpa using this
      · next la heq1 =>
        split
        · next e heq =>
            have := ih ((start + stop) / 2) stop (by omega)
            rw [heq] at this
            simpa using this
        · next ra heq2 =>
          split
          · next e heq =>
              intro hcon
              obtain rfl : e = PyError.outOfFuel := by simpa using hcon
              exact brutePairs_ne_outOfFuel _ θ _ heq
          · simp

theorem stripScan_provenance (points S : List (ℚ × ℚ)) (θ : ℚ)
    (hmem : ∀ x ∈ S, x ∈ points)
    (hsorted : S.Pairwise (fun a b : ℚ × ℚ => a.2 ≤ b.2))
    (sa : List AnomalyReport)
    (h : brutePairs S θ (stripPairs S.length) = .ok sa) :
    ∀ r ∈ sa, ∃ p ∈ points, ∃ q ∈ points,
      r = pairDeviation p q ∧ (p.1 ≤ q.1 ∨ p.2 ≤ q.2) := by
  intro r hr
  obtain ⟨⟨i, j⟩, hij, hrr⟩ := brutePairs_ok_mem S θ _ sa h r hr
  obtain ⟨h2, h3⟩ := stripPairs_mem _ _ _ hij
  have hilen : i < S.length := by omega
  refine ⟨S.getD i (0, 0), hmem _ (getD_mem _ _ _ hilen),
    S.getD j (0, 0), hmem _ (getD_mem _ _ _ h3), hrr, Or.inr ?_⟩
  rw [List.getD_eq_getElem _ _ hilen, List.getD_eq_getElem _ _ h3]
  exact (List.pairwise_iff_getElem.mp hsorted) i j hilen h3 h2

theorem closest_pair_rec_provenance (points : List (ℚ × ℚ)) (θ : ℚ)
    (hsorted : points.Pairwise (fun a b : ℚ × ℚ => a.1 ≤ b.1)) :
    ∀ fuel start stop, stop ≤ points.length →
      ∀ out, closest_pair_rec points θ fuel start stop = .ok out →
        ∀ r ∈ out, ∃ p ∈ points, ∃ q ∈ points,
          r = pairDeviation p q ∧ (p.1 ≤ q.1 ∨ p.2 ≤ q.2) := by
  intro fuel
  induction fuel with
  | zero =>
    intro start stop _ out h
    rw [closest_pair_rec] at h
    exact absurd h (by simp)
  | succ fuel ih =>
    intro start stop hstop out h r hr
    rw [closest_pair_rec] at h
    split at h
    · obtain ⟨⟨i, j⟩, hij, hrr⟩ := brutePairs_ok_mem points θ _ out h r hr
      obtain ⟨h1, h2, h3⟩ := pairIndices_mem _ _ _ _ hij
      have hjlen : j < points.length := by omega
      have hilen : i < points.length := by omega
      refine ⟨points.getD i (0, 0), getD_mem _ _ _ hilen,
        points.getD j (0, 0), getD_mem _ _ _ hjlen, hrr, Or.inl ?_⟩
      rw [List.getD_eq_getElem _ _ hilen, List.getD_eq_getElem _ _ hjlen]
      exact (List.pairwise_iff_getElem.mp hsorted) i j hilen hjlen h2
    · split at h
      · exact absurd h (by simp)
      · next la heq1 =>
        split at h
        · exact absurd h (by simp)
        · next ra heq2 =>
          split at h
          · exact absurd h (by simp)
          · next sa heq3 =>
            obtain rfl := (Except.ok.injEq .. ▸ h)
            rcases List.mem_append.mp hr with hr' | hr'
            · rcases List.mem_append.mp hr' with hr'' | hr''
              · exact ih start ((start + stop) / 2) (by omega) la heq1 r hr''
              · exact ih ((start + stop) / 2) stop hstop ra heq2 r hr''
            · refine stripScan_provenance points _ θ ?_
                (sortKeyed_pairwise _ _) sa heq3 r hr'
              intro x hx
              rw [mem_sortKeyed] at hx
              obtain ⟨hx1, _⟩ := List.mem_filter.mp hx
              obtain ⟨k, hk, rfl⟩ := List.mem_map.mp hx1
              rw [List.mem_range'_1] at hk
              exact getD_mem _ _ _ (by omega)

/-- C5: for every input sequence, `merge_sort` returns a permutation of the
input that is ordered non-decreasingly by timestamp; it is stable, expressed
as: for every timestamp `t`, the subsequence of points carrying timestamp `t`
is unchanged (so any two equal-timestamp points keep their relative order). -/
theorem merge_sort_sorts_stably (arr : List FinancialDataPoint) :
    List.Perm (merge_sort arr) arr ∧ (merge_sort arr).Sorted tsLE ∧
    ∀ t : ℚ, atKey t (merge_sort arr) = atKey t arr :=
  ⟨merge_sort_perm arr, merge_sort_sorted arr, fun t => merge_sort_atKey t arr⟩

/-- C9: `merge_sort` is idempotent — on a sequence already sorted
non-decreasingly by timestamp it returns the very same sequence. -/
theorem merge_sort_idempotent {arr : List FinancialDataPoint}
    (h : arr.Sorted tsLE) : merge_sort arr = arr :=
  merge_sort_of_sorted h

/-- Witness for C9 at the concrete two-point sorted sequence. -/
theorem merge_sort_idempotent_witness :
    ([⟨0, 100, none⟩, ⟨86400, 102, none⟩] :
        List FinancialDataPoint).Sorted tsLE ∧
      merge_sort [⟨0, 100, none⟩, ⟨86400, 102, none⟩] =
        [⟨0, 100, none⟩, ⟨86400, 102, none⟩] :=
  ⟨by simp [List.sorted_cons, tsLE],
    merge_sort_idempotent (by simp [List.sorted_cons, tsLE])⟩

/-- C4: for every price series of `n ≥ 1` points, the result of
`find_maximum_subarray` satisfies
`0 ≤ start_index ≤ end_index ≤ n - 1`, and the returned gain equals the
literal sum `Σ price[i+1] - price[i]` over `i ∈ [start_index,
end_index - 1]` (the empty sum being 0 when the two indices coincide). -/
theorem find_maximum_subarray_wellformed (prices : List ℚ)
    (h : 1 ≤ prices.length) :
    (find_maximum_subarray prices).start_index ≤
        (find_maximum_subarray prices).end_index ∧
      (find_maximum_subarray prices).end_index ≤ prices.length - 1 ∧
      (find_maximum_subarray prices).sum_value =
        ((deltaSum prices (find_maximum_subarray prices).start_index
            (find_maximum_subarray prices).end_index : ℚ) : WithBot ℚ) :=
  find_maximum_subarray_spec_aux prices h _ rfl

/-- Witness for C4 at the repository's own worked series. -/
theorem find_maximum_subarray_wellformed_witness :
    1 ≤ ([10, 11, 9, 15, 12] : List ℚ).length ∧
      ((find_maximum_subarray [10, 11, 9, 15, 12]).start_index ≤
          (find_maximum_subarray [10, 11, 9, 15, 12]).end_index ∧
        (find_maximum_subarray [10, 11, 9, 15, 12]).end_index ≤
          ([10, 11, 9, 15, 12] : List ℚ).length - 1 ∧
        (find_maximum_subarray [10, 11, 9, 15, 12]).sum_value =
          ((deltaSum [10, 11, 9, 15, 12]
              (find_maximum_subarray [10, 11, 9, 15, 12]).start_index
              (find_maximum_subarray [10, 11, 9, 15, 12]).end_index : ℚ) :
            WithBot ℚ)) :=
  ⟨by norm_num, find_maximum_subarray_wellformed [10, 11, 9, 15, 12]
    (by norm_num)⟩

/-- C1 (documents the code defect): `find_maximum_subarray` is not maximal.
On prices `[10, 11, 12]` (deltas `[1, 1]`) it returns the window `[0, 1]`
with gain `1`, strictly below the delta-sum `2` of the legal window
`[0, 2]`: the crossing scan starts its left pass at `mid - 1`, so a run
beginning exactly at the midpoint is never considered and the `-inf`
sentinel poisons the crossing sum. -/
theorem find_maximum_subarray_not_maximal :
    find_maximum_subarray [10, 11, 12] = ⟨0, 1, ((1 : ℚ) : WithBot ℚ)⟩ ∧
      (find_maximum_subarray [10, 11, 12]).sum_value <
        ((deltaSum [10, 11, 12] 0 2 : ℚ) : WithBot ℚ) ∧
      2 ≤ ([10, 11, 12] : List ℚ).length - 1 := by
  have h : find_maximum_subarray [10, 11, 12] =
      ⟨0, 1, ((1 : ℚ) : WithBot ℚ)⟩ := by
    norm_num [find_maximum_subarray, max_subarray, max_crossing_sum,
      crossLeftGo, crossRightGo, List.range_succ]
    rw [if_neg (by simp), if_neg (by simp)]
  have hd : deltaSum [10, 11, 12] 0 2 = 2 := by
    norm_num [deltaSum, List.range']
  refine ⟨h, ?_, by norm_num⟩
  rw [h, hd]
  show ((1 : ℚ) : WithBot ℚ) < ((2 : ℚ) : WithBot ℚ)
  exact_mod_cast (by norm_num : (1 : ℚ) < 2)

/-- C3 (documents the code defect): `find_closest_pairs` does not skip a
pairwise comparison whose reference point has price 0 — the distance
normalization divides by `p1.price` unguarded, and the resulting
`ZeroDivisionError` propagates to the caller. -/
theorem find_closest_pairs_zero_price_raises :
    find_closest_pairs [(0, 0), (86400, 100)] 1 =
      Except.error PyError.zeroDivision := by
  norm_num [find_closest_pairs, sortKeyed, insertKeyed, closest_pair_rec,
    brutePairs, pairIndices, distGtThreshold, List.range']

/-- C10: `find_closest_pairs` terminates on every finite input: whenever
`stop - start > 3`, both recursive sub-ranges (split at the midpoint, which
belongs to both) are strictly shorter than the parent range, so recursion
fuel exceeding the range size is never exhausted — neither by
`closest_pair_rec` nor by `find_closest_pairs`, which supplies fuel
`n + 1`. -/
theorem closest_pair_rec_terminates (points : List (ℚ × ℚ)) (θ : ℚ)
    (fuel start stop : ℕ) (h : stop - start < fuel) :
    (3 < stop - start →
      (start + stop) / 2 - start < stop - start ∧
        stop - (start + stop) / 2 < stop - start) ∧
      closest_pair_rec points θ fuel start stop ≠
        Except.error PyError.outOfFuel ∧
      find_closest_pairs points θ ≠ Except.error PyError.outOfFuel :=
  ⟨by omega, closest_pair_rec_fuel points θ fuel start stop h,
    closest_pair_rec_fuel _ θ _ 0 _ (by omega)⟩

/-- Witness for C10 at a concrete four-point input. -/
theorem closest_pair_rec_terminates_witness :
    (4 : ℕ) - 0 < 5 ∧
      ((3 < (4 : ℕ) - 0 →
        (0 + 4) / 2 - 0 < (4 : ℕ) - 0 ∧ (4 : ℕ) - (0 + 4) / 2 < 4 - 0) ∧
      closest_pair_rec [((0 : ℚ), (1 : ℚ)), (1, 2), (2, 3), (3, 4)] 1 5 0 4 ≠
        Except.error PyError.outOfFuel ∧
      find_closest_pairs [((0 : ℚ), (1 : ℚ)), (1, 2), (2, 3), (3, 4)] 1 ≠
        Except.error PyError.outOfFuel) :=
  ⟨by norm_num, closest_pair_rec_terminates
    [((0 : ℚ), (1 : ℚ)), (1, 2), (2, 3), (3, 4)] 1 5 0 4 (by norm_num)⟩

/-- C6 counterexample: on four points with threshold 2, the strip scan
emits the record `⟨0, 4, 1, 300⟩`, whose pair partner — the only input
point of price 1, at timestamp 150000 — is strictly later than the emitted
point: the record is emitted for the earlier point of its exceeding pair,
because the strip is ordered by price, not by time. -/
theorem find_closest_pairs_emits_for_earlier :
    find_closest_pairs
        [((0 : ℚ), (4 : ℚ)), (50000, 4), (100000, 4), (150000, 1)] 2 =
      Except.ok [⟨0, 4, 1, 300⟩, ⟨50000, 4, 1, 300⟩, ⟨100000, 4, 1, 300⟩] ∧
    ¬ emittedForLaterPoint
        [((0 : ℚ), (4 : ℚ)), (50000, 4), (100000, 4), (150000, 1)]
        ⟨0, 4, 1, 300⟩ := by
  constructor
  · norm_num [find_closest_pairs, sortKeyed, insertKeyed, closest_pair_rec,
      brutePairs, pairIndices, stripPairs, distGtThreshold, pairDeviation,
      List.range', List.range_succ]
  · norm_num [emittedForLaterPoint]

/-- C6 (amended): every anomaly record emitted by the spatial scan arises
from an exceeding pair `(p, q)` of input points and is emitted for the
second point `q` of the comparison, with deviation the relative price
difference (as a percentage) from the first point `p`'s price; `q` is the
later of the pair in timestamp order in the brute-force base case, but in
the strip scan it is the higher of the pair in price-sorted order, not
necessarily the later in time. -/
theorem find_closest_pairs_emission_shape (pts : List (ℚ × ℚ)) (θ : ℚ)
    (out : List AnomalyReport)
    (h : find_closest_pairs pts θ = Except.ok out) :
    ∀ r ∈ out, ∃ p ∈ pts, ∃ q ∈ pts,
      r.timestamp = q.1 ∧ r.value = q.2 ∧ r.expected_value = p.2 ∧
      r.deviation_percentage = |q.2 - p.2| / p.2 * 100 ∧
      (p.1 ≤ q.1 ∨ p.2 ≤ q.2) := by
  intro r hr
  rw [find_closest_pairs] at h
  obtain ⟨p, hp, q, hq, hrr, hor⟩ :=
    closest_pair_rec_provenance _ θ (sortKeyed_pairwise (fun x => x.1) pts)
      _ 0 _ (le_refl _) out h r hr
  rw [mem_sortKeyed] at hp hq
  exact ⟨p, hp, q, hq, by rw [hrr]; rfl, by rw [hrr]; rfl, by rw [hrr]; rfl,
    by rw [hrr]; rfl, hor⟩

/-- Witness for the amended C6 at the counterexample input, specialised to
the first emitted record. -/
theorem find_closest_pairs_emission_shape_witness :
    ∃ p ∈ [((0 : ℚ), (4 : ℚ)), (50000, 4), (100000, 4), (150000, 1)],
      ∃ q ∈ [((0 : ℚ), (4 : ℚ)), (50000, 4), (100000, 4), (150000, 1)],
        (⟨0, 4, 1, 300⟩ : AnomalyReport).timestamp = q.1 ∧
        (⟨0, 4, 1, 300⟩ : AnomalyReport).value = q.2 ∧
        (⟨0, 4, 1, 300⟩ : AnomalyReport).expected_value = p.2 ∧
        (⟨0, 4, 1, 300⟩ : AnomalyReport).deviation_percentage =
          |q.2 - p.2| / p.2 * 100 ∧
        (p.1 ≤ q.1 ∨ p.2 ≤ q.2) :=
  find_closest_pairs_emission_shape
    [((0 : ℚ), (4 : ℚ)), (50000, 4), (100000, 4), (150000, 1)] 2
    [⟨0, 4, 1, 300⟩, ⟨50000, 4, 1, 300⟩, ⟨100000, 4, 1, 300⟩]
    (by norm_num [find_closest_pairs, sortKeyed, insertKeyed,
      closest_pair_rec, brutePairs, pairIndices, stripPairs,
      distGtThreshold, pairDeviation, List.range', List.range_succ])
    ⟨0, 4, 1, 300⟩ (by norm_num)

/-- C2 (modelled from the spec — `load_data` is absent from `algorithm.py`,
only its tests and callers exist): an empty input sequence, or mismatched
parallel timestamp/price/volume arrays, make the pipeline fail with a
validation error produced at load time; the load error short-circuits the
pipeline, so no core algorithm (sort, gain-window search, anomaly
detection) runs. -/
theorem load_validation_fails_fast (ts ps : List ℚ) (vols : Option (List ℚ))
    (θ : ℚ)
    (h : ts = [] ∨ ts.length ≠ ps.length ∨
      ∃ vs, vols = some vs ∧ vs.length ≠ ts.length) :
    loadAndAnalyze ts ps vols θ = Except.error PyError.valueError := by
  rw [loadAndAnalyze]
  have hload : load_data ts ps vols = .error .valueError := by
    rcases h with rfl | h | ⟨vs, rfl, hv⟩
    · simp [load_data]
    · by_cases h0 : ts.length = 0 <;> simp [load_data, h0, h]
    · by_cases h0 : ts.length = 0
      · simp [load_data, h0]
      · by_cases h1 : ts.length = ps.length
        · simp only [load_data, h0, h1]
          simp
          intro _
          omega
        · simp [load_data, h0, h1]
  rw [hload]

/-- Witness for C2 at the empty input. -/
theorem load_validation_fails_fast_witness :
    (([] : List ℚ) = [] ∨ ([] : List ℚ).length ≠ ([] : List ℚ).length ∨
      ∃ vs, (none : Option (List ℚ)) = some vs ∧ vs.length ≠ 0) ∧
      loadAndAnalyze [] [] none 1 = Except.error PyError.valueError :=
  ⟨Or.inl rfl, load_validation_fails_fast [] [] none 1 (Or.inl rfl)⟩

/-- C7 (modelled from the spec — `generate_report` is absent from
`algorithm.py`, only its tests and callers exist): the report carries
volume statistics iff at least one loaded point carries a volume value,
and those statistics are computed exactly over the volume-carrying
subset. -/
theorem generate_report_volume_stats (data : List FinancialDataPoint)
    (anomalies : List AnomalyReport) :
    ((generate_report data anomalies).volume_statistics.isSome ↔
      ∃ p ∈ data, p.volume.isSome) ∧
    ∀ vs, (generate_report data anomalies).volume_statistics = some vs →
      vs = statsOf (data.filterMap (·.volume)) := by
  have hkey : (data.filterMap (·.volume)).isEmpty = true ↔
      ¬∃ p ∈ data, p.volume.isSome := by
    rw [List.isEmpty_iff, List.filterMap_eq_nil_iff]
    constructor
    · intro hall ⟨p, hp, hs⟩
      rw [Option.isSome_iff_ne_none] at hs
      exact hs (hall p hp)
    · intro hne p hp
      by_contra hsome
      exact hne ⟨p, hp, Option.ne_none_iff_isSome.mp hsome⟩
  constructor
  · rw [generate_report]
    simp only
    by_cases hemp : (data.filterMap (·.volume)).isEmpty
    · rw [if_pos hemp]
      simpa using hkey.mp hemp
    · rw [if_neg hemp]
      simp only [Option.isSome_some, true_iff]
      by_contra hne
      exact hemp (hkey.mpr hne)
  · intro vs hvs
    rw [generate_report] at hvs
    simp only at hvs
    by_cases hemp : (data.filterMap (·.volume)).isEmpty
    · rw [if_pos hemp] at hvs
      exact absurd hvs (by simp)
    · rw [if_neg hemp] at hvs
      exact (Option.some.injEq .. ▸ hvs).symm

/-- C8 (modelled from the spec — `detect_anomalies` is absent from
`algorithm.py`, only its tests exist): with a valid positive threshold, a
series with fewer points than `window_size` yields an empty anomaly list
and no error. -/
theorem detect_anomalies_short_series (data : List FinancialDataPoint)
    (window_size : ℕ) (θ : ℚ) (hlen : data.length < window_size)
    (hθ : 0 < θ) :
    detect_anomalies data window_size θ = Except.ok [] := by
  rw [detect_anomalies,
    if_neg (by push_neg; exact ⟨by omega, by linarith⟩)]
  congr 1
  rw [List.filterMap_eq_nil_iff]
  intro i hi
  rw [List.mem_range] at hi
  rw [if_neg (by omega)]

/-- Witness for C8 at a two-point series with window size 3. -/
theorem detect_anomalies_short_series_witness :
    ([⟨0, 100, none⟩, ⟨86400, 102, none⟩] :
        List FinancialDataPoint).length < 3 ∧ (0 : ℚ) < 2 ∧
      detect_anomalies [⟨0, 100, none⟩, ⟨86400, 102, none⟩] 3 2 =
        Except.ok [] :=
  ⟨by norm_num, by norm_num,
    detect_anomalies_short_series [⟨0, 100, none⟩, ⟨86400, 102, none⟩] 3 2
      (by norm_num) (by norm_num)⟩

end FinAnalyzer
